import Mathlib

/-!
Shallow embedding of `src/reverse_dict.py` (`class ReverseDict(dict, Reversible)`).

Keys and values are modelled as `Nat` (the Python class looks keys up first in
the forward direction and then among the values, so a single carrier type is
the faithful embedding of that dynamic behaviour).

The underlying Python `dict` is modelled as an insertion-ordered association
list with unique keys (`dictSet` overwrites in place, keeping the original
position, and appends new keys at the end, exactly as CPython dicts do).

State of a `ReverseDict` object:
  * `forward` — the contents of the built-in `dict` (via `super().__setitem__`
    etc.);
  * `keys` — the list `self._keys` (initialised to `list(self.keys())`);
  * `values` — the list `self._values` (initialised to `list(self.values())`);
  * `inv?` — the `_inverse` cache, `none` until the `inverse` property is
    first evaluated.

The `self._inverse_items = zip(self._values, self._keys)` iterator holds live
references to the two lists and is consumed exactly once, when `_inverse` is
first built; so the cache snapshot is `zip _values _keys` as they stand at the
time of the first access, which is what `buildInverse` computes.

Every method of the class becomes an explicit state-passing function below:
a returned `Option Nat` with value `none` models a raised `KeyError`
("KeyNotFound" in the specification).
-/

namespace RD

/-- Python `d[k] = v` on a built-in dict: overwrite in place at the key's
original position if present, else append at the end. -/
def dictSet : List (Nat × Nat) → Nat → Nat → List (Nat × Nat)
  | [], k, v => [(k, v)]
  | p :: d, k, v => if p.1 = k then (k, v) :: d else p :: dictSet d k v

/-- Python `d[k]` on a built-in dict: `some` of the stored value, `none` in
place of a raised `KeyError`. -/
def dictGet? : List (Nat × Nat) → Nat → Option Nat
  | [], _ => none
  | p :: d, k => if p.1 = k then some p.2 else dictGet? d k

/-- Python `del d[k]` on a built-in dict (the entry is unique when present). -/
def dictDel : List (Nat × Nat) → Nat → List (Nat × Nat)
  | [], _ => []
  | p :: d, k => if p.1 = k then d else p :: dictDel d k

/-- The state of a `ReverseDict` instance. -/
structure ReverseDict where
  forward : List (Nat × Nat)
  keys : List Nat
  values : List Nat
  inv? : Option (List (Nat × Nat))
deriving DecidableEq, Repr

/-- `ReverseDict.__init__(pairs)`: `dict.__init__` stores the pairs with
last-write-wins on duplicate keys, then `_keys = list(self.keys())`,
`_values = list(self.values())`, and the inverse cache is absent. -/
def mk (pairs : List (Nat × Nat)) : ReverseDict :=
  let fwd := pairs.foldl (fun d p => dictSet d p.1 p.2) []
  { forward := fwd
    keys := fwd.map Prod.fst
    values := fwd.map Prod.snd
    inv? := none }

/-- The snapshot the `inverse` property materialises on its first evaluation:
`{v: k for (v, k) in zip(self._values, self._keys)}` over the lists as they
stand at that moment (later positions overwrite earlier ones). -/
def buildInverse (s : ReverseDict) : List (Nat × Nat) :=
  (s.values.zip s.keys).foldl (fun d p => dictSet d p.1 p.2) []

/-- The `inverse` property: returns the cache if present, otherwise builds it
from the zip snapshot and stores it. Returns the mapping and the new state. -/
def inverseOp (s : ReverseDict) : List (Nat × Nat) × ReverseDict :=
  match s.inv? with
  | some m => (m, s)
  | none =>
    let m := buildInverse s
    (m, { s with inv? := some m })

/-- The mapping that the `inverse` property returns on the given state. -/
def inverseView (s : ReverseDict) : List (Nat × Nat) :=
  (inverseOp s).1

/-- `__contains__`: `key in self._keys or key in self.inverse`; the `or`
short-circuits, so the inverse cache is only (built and) consulted when the
forward check fails. -/
def containsOp (s : ReverseDict) (k : Nat) : Bool × ReverseDict :=
  if k ∈ s.keys then (true, s)
  else
    let r := inverseOp s
    ((dictGet? r.1 k).isSome, r.2)

/-- `__setitem__`: a new key is appended to `_keys` and its value to
`_values`; in both cases the forward dict entry is stored/overwritten.
For an existing key `_values` is NOT touched. -/
def setOp (s : ReverseDict) (k v : Nat) : ReverseDict :=
  if k ∈ s.keys then { s with forward := dictSet s.forward k v }
  else
    { s with
      forward := dictSet s.forward k v
      keys := s.keys ++ [k]
      values := s.values ++ [v] }

/-- A sequence of `__setitem__` calls. -/
def setMany (s : ReverseDict) (ops : List (Nat × Nat)) : ReverseDict :=
  ops.foldl (fun t p => setOp t p.1 p.2) s

/-- `__delitem__`: on a present key, remove the forward entry and the
position `self._keys.index(key)` from both lists; `none` models the raised
`KeyError` on an absent key. -/
def delOp (s : ReverseDict) (k : Nat) : Option ReverseDict :=
  if k ∈ s.keys then
    some
      { s with
        forward := dictDel s.forward k
        keys := s.keys.eraseIdx (s.keys.indexOf k)
        values := s.values.eraseIdx (s.keys.indexOf k) }
  else none

/-- `__getitem__`: forward lookup when the key is in `_keys`; otherwise the
inverse view (building the cache as a side effect) is consulted; `none`
models the raised `KeyError`. -/
def getOp (s : ReverseDict) (k : Nat) : Option Nat × ReverseDict :=
  if k ∈ s.keys then (dictGet? s.forward k, s)
  else
    let r := inverseOp s
    (dictGet? r.1 k, r.2)

/-- `invert()`: a fresh `ReverseDict()` filled by `inverted[value] = key`
(i.e. `__setitem__`) over the forward items in insertion order. -/
def invertOp (s : ReverseDict) : ReverseDict :=
  s.forward.foldl (fun t p => setOp t p.2 p.1) (mk [])

/-- Well-formedness maintained by the public interface: `_keys` lists the
forward dict's keys in order, those keys are pairwise distinct, and
`_values` runs in parallel with `_keys`. -/
def WF (s : ReverseDict) : Prop :=
  s.keys = s.forward.map Prod.fst ∧ s.keys.Nodup ∧
    s.values.length = s.keys.length

/-- The parallel-array correspondence of the specification: equal lengths and
`valueOrder[i]` is the forward-stored value of `keyOrder[i]`. -/
def Corr (s : ReverseDict) : Prop :=
  s.values.length = s.keys.length ∧
    ∀ p ∈ s.keys.zip s.values, dictGet? s.forward p.1 = some p.2

instance (s : ReverseDict) : Decidable (WF s) := by
  unfold WF; infer_instance

instance (s : ReverseDict) : Decidable (Corr s) := by
  unfold Corr; infer_instance

theorem dictGet?_eq_none {d : List (Nat × Nat)} {k : Nat} :
    dictGet? d k = none ↔ k ∉ d.map Prod.fst := by
  induction d with
  | nil => simp [dictGet?]
  | cons p d ih =>
    simp only [dictGet?, List.map_cons, List.mem_cons]
    by_cases h : p.1 = k
    · subst h; simp
    · simp [h, ih, Ne.symm h]

theorem dictGet?_isSome {d : List (Nat × Nat)} {k : Nat} :
    (dictGet? d k).isSome = true ↔ k ∈ d.map Prod.fst := by
  rw [Option.isSome_iff_ne_none, ne_eq, dictGet?_eq_none, not_not]

theorem dictGet?_dictSet_self (d : List (Nat × Nat)) (k v : Nat) :
    dictGet? (dictSet d k v) k = some v := by
  induction d with
  | nil => simp [dictSet, dictGet?]
  | cons p d ih =>
    by_cases h : p.1 = k
    · simp [dictSet, h, dictGet?]
    · simp [dictSet, h, dictGet?, ih]

theorem dictGet?_dictSet_ne {x k : Nat} (d : List (Nat × Nat)) (v : Nat)
    (h : x ≠ k) : dictGet? (dictSet d k v) x = dictGet? d x := by
  induction d with
  | nil => simp [dictSet, dictGet?, Ne.symm h]
  | cons p d ih =>
    by_cases hp : p.1 = k
    · subst hp
      simp [dictSet, dictGet?, Ne.symm h]
    · simp only [dictSet, if_neg hp, dictGet?]
      rw [ih]

theorem dictSet_eq_append {d : List (Nat × Nat)} {k : Nat} (v : Nat)
    (h : k ∉ d.map Prod.fst) : dictSet d k v = d ++ [(k, v)] := by
  induction d with
  | nil => rfl
  | cons p d ih =>
    simp only [List.map_cons, List.mem_cons] at h
    push_neg at h
    simp [dictSet, Ne.symm h.1, ih h.2]

theorem map_fst_dictSet_of_mem {d : List (Nat × Nat)} {k : Nat} (v : Nat)
    (h : k ∈ d.map Prod.fst) :
    (dictSet d k v).map Prod.fst = d.map Prod.fst := by
  induction d with
  | nil => simp at h
  | cons p d ih =>
    by_cases hp : p.1 = k
    · simp [dictSet, hp]
    · simp only [List.map_cons, List.mem_cons] at h
      rcases h with h | h


      · exact absurd h.symm hp
      · simp [dictSet, hp, ih h]

theorem mem_map_fst_dictSet {d : List (Nat × Nat)} {x k : Nat} (v : Nat) :
    x ∈ (dictSet d k v).map Prod.fst ↔ x ∈ d.map Prod.fst ∨ x = k := by
  by_cases h : k ∈ d.map Prod.fst
  · rw [map_fst_dictSet_of_mem v h]
    constructor
    · exact Or.inl
    · rintro (hx | rfl)
      · exact hx
      · exact h
  · rw [dictSet_eq_append v h]
    simp

theorem dictGet?_append_some {d e : List (Nat × Nat)} {x y : Nat}
    (h : dictGet? d x = some y) : dictGet? (d ++ e) x = some y := by
  induction d with
  | nil => simp [dictGet?] at h
  | cons p d ih =>
    by_cases hp : p.1 = x
    · simp_all [dictGet?]
    · simp_all [dictGet?]

theorem dictGet?_append_none {d e : List (Nat × Nat)} {x : Nat}
    (h : dictGet? d x = none) : dictGet? (d ++ e) x = dictGet? e x := by
  induction d with
  | nil => simp
  | cons p d ih =>
    by_cases hp : p.1 = x
    · simp [dictGet?, hp] at h
    · simp_all [dictGet?]

theorem dictGet?_of_mem_nodup {d : List (Nat × Nat)} {p : Nat × Nat}
    (hnd : (d.map Prod.fst).Nodup) (hp : p ∈ d) :
    dictGet? d p.1 = some p.2 := by
  induction d with
  | nil => simp at hp
  | cons q d ih =>
    simp only [List.map_cons, List.nodup_cons] at hnd
    rcases List.mem_cons.mp hp with rfl | hp
    · simp [dictGet?]
    · have hne : q.1 ≠ p.1 := fun he =>
        hnd.1 (he ▸ List.mem_map_of_mem Prod.fst hp)
      simp [dictGet?, hne, ih hnd.2 hp]

theorem map_fst_dictDel (d : List (Nat × Nat)) (k : Nat) :
    (dictDel d k).map Prod.fst = (d.map Prod.fst).erase k := by
  induction d with
  | nil => rfl
  | cons p d ih =>
    by_cases h : p.1 = k
    · simp [dictDel, h, List.erase_cons]
    · simp [dictDel, h, List.erase_cons, ih]

theorem dictGet?_dictDel_ne {x k : Nat} (d : List (Nat × Nat)) (h : x ≠ k) :
    dictGet? (dictDel d k) x = dictGet? d x := by
  induction d with
  | nil => rfl
  | cons p d ih =>
    by_cases hp : p.1 = k
    · subst hp
      simp [dictDel, dictGet?, Ne.symm h]
    · simp only [dictDel, if_neg hp, dictGet?]
      rw [ih]

theorem dictGet?_dictDel_self {d : List (Nat × Nat)} {k : Nat}
    (hnd : (d.map Prod.fst).Nodup) : dictGet? (dictDel d k) k = none := by
  induction d with
  | nil => rfl
  | cons p d ih =>
    simp only [List.map_cons, List.nodup_cons] at hnd
    by_cases h : p.1 = k
    · subst h
      simp only [dictDel, if_pos rfl]
      exact dictGet?_eq_none.mpr hnd.1
    · simp [dictDel, h, dictGet?, ih hnd.2]

theorem nodup_map_fst_dictSet {d : List (Nat × Nat)} {k : Nat} (v : Nat)
    (h : (d.map Prod.fst).Nodup) :
    ((dictSet d k v).map Prod.fst).Nodup := by
  by_cases hm : k ∈ d.map Prod.fst
  · rwa [map_fst_dictSet_of_mem v hm]
  · rw [dictSet_eq_append v hm, List.map_append]
    simp only [List.map_cons, List.map_nil]
    rw [List.nodup_append]
    exact ⟨h, List.nodup_singleton k,
      fun x hx hk => hm ((List.mem_singleton.mp hk) ▸ hx)⟩

theorem mem_map_fst_foldl_dictSet (l : List (Nat × Nat)) (x : Nat)
    (init : List (Nat × Nat)) :
    x ∈ (l.foldl (fun d p => dictSet d p.1 p.2) init).map Prod.fst ↔
      x ∈ init.map Prod.fst ∨ x ∈ l.map Prod.fst := by
  induction l generalizing init with
  | nil => simp
  | cons p l ih =>
    simp only [List.foldl_cons, ih, mem_map_fst_dictSet, List.map_cons,
      List.mem_cons]
    tauto

theorem nodup_map_fst_foldl_dictSet (l : List (Nat × Nat))
    (init : List (Nat × Nat)) (h : (init.map Prod.fst).Nodup) :
    ((l.foldl (fun d p => dictSet d p.1 p.2) init).map Prod.fst).Nodup := by
  induction l generalizing init with
  | nil => exact h
  | cons p l ih => exact ih _ (nodup_map_fst_dictSet _ h)

theorem zip_eraseIdx :
    ∀ (as bs : List Nat) (i : Nat), as.length = bs.length →
      (as.eraseIdx i).zip (bs.eraseIdx i) = (as.zip bs).eraseIdx i
  | [], _, _, h => by
    have : _ = [] := (List.eq_nil_of_length_eq_zero h.symm)
    simp [this]
  | _ :: _, [], _, h => by simp at h
  | _ :: _, _ :: _, 0, _ => by simp
  | a :: as, b :: bs, i + 1, h => by
    simp only [List.eraseIdx_cons_succ, List.zip_cons_cons]
    rw [zip_eraseIdx as bs i (Nat.succ.inj h)]

theorem inv?_setOp (s : ReverseDict) (k v : Nat) :
    (setOp s k v).inv? = s.inv? := by
  unfold setOp; split <;> rfl

theorem inv?_setMany (s : ReverseDict) (ops : List (Nat × Nat)) :
    (setMany s ops).inv? = s.inv? := by
  induction ops generalizing s with
  | nil => rfl
  | cons p ops ih =>
    show (setMany (setOp s p.1 p.2) ops).inv? = s.inv?
    rw [ih, inv?_setOp]

theorem inverseOp_of_some {s : ReverseDict} {m : List (Nat × Nat)}
    (h : s.inv? = some m) : inverseOp s = (m, s) := by
  unfold inverseOp; rw [h]

theorem inverseView_of_some {s : ReverseDict} {m : List (Nat × Nat)}
    (h : s.inv? = some m) : inverseView s = m := by
  unfold inverseView; rw [inverseOp_of_some h]

theorem inverseOp_of_none {s : ReverseDict} (h : s.inv? = none) :
    inverseOp s =
      (buildInverse s, { s with inv? := some (buildInverse s) }) := by
  unfold inverseOp; rw [h]

theorem inverseView_of_none {s : ReverseDict} (h : s.inv? = none) :
    inverseView s = buildInverse s := by
  unfold inverseView; rw [inverseOp_of_none h]

theorem delOp_eq_some {s s2 : ReverseDict} {k : Nat}
    (hd : delOp s k = some s2) :
    k ∈ s.keys ∧
      s2 = { s with
              forward := dictDel s.forward k
              keys := s.keys.eraseIdx (s.keys.indexOf k)
              values := s.values.eraseIdx (s.keys.indexOf k) } := by
  unfold delOp at hd
  split at hd
  case isTrue hm => exact ⟨hm, (Option.some.injEq _ _ ▸ hd).symm⟩
  case isFalse hm => cases hd

theorem inv?_delOp {s s2 : ReverseDict} {k : Nat}
    (hd : delOp s k = some s2) : s2.inv? = s.inv? := by
  rw [(delOp_eq_some hd).2]

theorem wf_mk (pairs : List (Nat × Nat)) : WF (mk pairs) := by
  refine ⟨rfl, ?_, by simp [mk]⟩
  exact nodup_map_fst_foldl_dictSet pairs [] (by simp)

theorem wf_setOp {s : ReverseDict} (k v : Nat) (h : WF s) :
    WF (setOp s k v) := by
  obtain ⟨hk, hnd, hlen⟩ := h
  unfold setOp
  by_cases hm : k ∈ s.keys
  · rw [if_pos hm]
    exact ⟨by rw [hk, map_fst_dictSet_of_mem v (hk ▸ hm)], hnd, hlen⟩
  · rw [if_neg hm]
    refine ⟨?_, ?_, ?_⟩
    · show s.keys ++ [k] = (dictSet s.forward k v).map Prod.fst
      rw [dictSet_eq_append v (hk ▸ hm), List.map_append, hk]
      rfl
    · show (s.keys ++ [k]).Nodup
      rw [List.nodup_append]
      exact ⟨hnd, List.nodup_singleton k,
        fun x hx hk2 => hm ((List.mem_singleton.mp hk2) ▸ hx)⟩
    · show (s.values ++ [v]).length = (s.keys ++ [k]).length
      simp [hlen]

theorem wf_delOp {s s2 : ReverseDict} {k : Nat} (h : WF s)
    (hd : delOp s k = some s2) : WF s2 := by
  obtain ⟨hk, hnd, hlen⟩ := h
  obtain ⟨hm, rfl⟩ := delOp_eq_some hd
  have hidx : s.keys.indexOf k < s.keys.length :=
    List.indexOf_lt_length.mpr hm
  refine ⟨?_, ?_, ?_⟩
  · show s.keys.eraseIdx (s.keys.indexOf k) = (dictDel s.forward k).map Prod.fst
    rw [List.eraseIdx_indexOf_eq_erase, map_fst_dictDel, ← hk]
  · exact hnd.eraseIdx _
  · show (s.values.eraseIdx _).length = (s.keys.eraseIdx _).length
    rw [List.length_eraseIdx_of_lt hidx,
      List.length_eraseIdx_of_lt (hlen ▸ hidx)]
    rw [hlen]

theorem not_mem_keys_delOp {s s2 : ReverseDict} {k : Nat} (h : WF s)
    (hd : delOp s k = some s2) : k ∉ s2.keys := by
  obtain ⟨_, hnd, _⟩ := h
  obtain ⟨hm, rfl⟩ := delOp_eq_some hd
  show k ∉ s.keys.eraseIdx (s.keys.indexOf k)
  rw [List.eraseIdx_indexOf_eq_erase]
  exact hnd.not_mem_erase

theorem zip_map_fst_snd (l : List (Nat × Nat)) :
    (l.map Prod.fst).zip (l.map Prod.snd) = l := by
  rw [List.zip_map']
  simp

theorem corr_mk (pairs : List (Nat × Nat)) : Corr (mk pairs) := by
  constructor
  · simp [mk]
  · intro p hp
    have hw := wf_mk pairs
    have hnd : ((mk pairs).forward.map Prod.fst).Nodup := hw.1 ▸ hw.2.1
    rw [show (mk pairs).keys = (mk pairs).forward.map Prod.fst from rfl,
      show (mk pairs).values = (mk pairs).forward.map Prod.snd from rfl,
      zip_map_fst_snd] at hp
    exact dictGet?_of_mem_nodup hnd hp

theorem corr_setOp_new {s : ReverseDict} {k : Nat} (v : Nat) (hwf : WF s)
    (hc : Corr s) (hm : k ∉ s.keys) : Corr (setOp s k v) := by
  obtain ⟨hk, hnd, hlen⟩ := hwf
  obtain ⟨hclen, hcp⟩ := hc
  unfold setOp
  rw [if_neg hm]
  constructor
  · show (s.values ++ [v]).length = (s.keys ++ [k]).length
    simp [hclen]
  · intro p hp
    replace hp : p ∈ (s.keys ++ [k]).zip (s.values ++ [v]) := hp
    rw [List.zip_append hlen.symm] at hp
    show dictGet? (dictSet s.forward k v) p.1 = some p.2
    rw [dictSet_eq_append v (hk ▸ hm)]
    rcases List.mem_append.mp hp with hp | hp
    · exact dictGet?_append_some (hcp p hp)
    · have : p = (k, v) := by simpa using hp
      subst this
      rw [dictGet?_append_none (dictGet?_eq_none.mpr (hk ▸ hm))]
      simp [dictGet?]

theorem corr_delOp {s s2 : ReverseDict} {k : Nat} (hwf : WF s)
    (hc : Corr s) (hd : delOp s k = some s2) : Corr s2 := by
  have hwf2 := wf_delOp hwf hd
  obtain ⟨hk, hnd, hlen⟩ := hwf
  obtain ⟨hclen, hcp⟩ := hc
  obtain ⟨hm, rfl⟩ := delOp_eq_some hd
  refine ⟨hwf2.2.2, ?_⟩
  intro p hp
  replace hp : p ∈ (s.keys.eraseIdx (s.keys.indexOf k)).zip
      (s.values.eraseIdx (s.keys.indexOf k)) := hp
  have h1 : p.1 ∈ s.keys.eraseIdx (s.keys.indexOf k) := (List.of_mem_zip hp).1
  rw [List.eraseIdx_indexOf_eq_erase] at h1
  have hne : p.1 ≠ k := (hnd.mem_erase_iff.mp h1).1
  rw [zip_eraseIdx _ _ _ hlen.symm] at hp
  have hp2 : p ∈ s.keys.zip s.values := List.mem_of_mem_eraseIdx hp
  show dictGet? (dictDel s.forward k) p.1 = some p.2
  rw [dictGet?_dictDel_ne _ hne]
  exact hcp p hp2

/-- The map obtained by feeding a list of pairs to repeated `__setitem__`
calls on a fresh empty `ReverseDict` (this is what `invert()` does with the
swapped forward items). -/
def fromPairs (l : List (Nat × Nat)) : ReverseDict :=
  l.foldl (fun t p => setOp t p.1 p.2) (mk [])

theorem foldl_setOp_forward :
    ∀ (l : List (Nat × Nat)) (t : ReverseDict), WF t →
      (t.keys ++ l.map Prod.fst).Nodup →
      (l.foldl (fun u p => setOp u p.1 p.2) t).forward = t.forward ++ l
  | [], t, _, _ => by simp
  | p :: l, t, hwf, hnd => by
    have hm : p.1 ∉ t.keys := by
      rw [List.nodup_append] at hnd
      exact fun hx => hnd.2.2 hx (by simp)
    have hf : (setOp t p.1 p.2).forward = t.forward ++ [p] := by
      unfold setOp
      rw [if_neg hm]
      show dictSet t.forward p.1 p.2 = t.forward ++ [p]
      rw [dictSet_eq_append _ (hwf.1 ▸ hm)]
    have hnd2 : ((setOp t p.1 p.2).keys ++ l.map Prod.fst).Nodup := by
      have hkeys : (setOp t p.1 p.2).keys = t.keys ++ [p.1] := by
        unfold setOp
        rw [if_neg hm]
      rw [hkeys, List.append_assoc, List.singleton_append]
      simpa using hnd
    rw [List.foldl_cons,
      foldl_setOp_forward l (setOp t p.1 p.2) (wf_setOp _ _ hwf) hnd2, hf,
      List.append_assoc, List.singleton_append]

theorem fromPairs_forward {l : List (Nat × Nat)}
    (h : (l.map Prod.fst).Nodup) : (fromPairs l).forward = l := by
  have hres := foldl_setOp_forward l (mk []) (wf_mk [])
    (by simpa [mk] using h)
  simpa [mk, fromPairs] using hres

theorem invertOp_eq_fromPairs (s : ReverseDict) :
    invertOp s = fromPairs (s.forward.map Prod.swap) := by
  unfold invertOp fromPairs
  rw [List.foldl_map]
  rfl

theorem mem_buildInverse {s : ReverseDict} {v : Nat}
    (hlen : s.values.length = s.keys.length) (hv : v ∈ s.values) :
    (dictGet? (buildInverse s) v).isSome = true := by
  unfold buildInverse
  rw [dictGet?_isSome, mem_map_fst_foldl_dictSet]
  right
  rw [List.map_fst_zip _ _ (le_of_eq hlen)]
  exact hv

theorem buildInverse_setOp_new {s : ReverseDict} {k : Nat} (v : Nat)
    (hlen : s.values.length = s.keys.length) (hm : k ∉ s.keys) :
    dictGet? (buildInverse (setOp s k v)) v = some k := by
  unfold setOp
  rw [if_neg hm]
  unfold buildInverse
  show dictGet? (((s.values ++ [v]).zip (s.keys ++ [k])).foldl
    (fun d p => dictSet d p.1 p.2) []) v = some k
  rw [List.zip_append hlen, List.foldl_append]
  simp only [List.zip_cons_cons, List.zip_nil_right, List.foldl_cons,
    List.foldl_nil]
  exact dictGet?_dictSet_self _ v k

theorem getOp_fst (s : ReverseDict) (k : Nat) :
    (getOp s k).1 =
      if k ∈ s.keys then dictGet? s.forward k
      else dictGet? (inverseView s) k := by
  unfold getOp inverseView
  split <;> rfl

theorem inverseOp_snd_inv? (s : ReverseDict) :
    (inverseOp s).2.inv? = some (inverseView s) := by
  cases hc : s.inv? with
  | some m => rw [inverseOp_of_some hc, inverseView_of_some hc]; exact hc
  | none => rw [inverseOp_of_none hc, inverseView_of_none hc]

example : mk [(1, 2)] =
    { forward := [(1, 2)], keys := [1], values := [2], inv? := none } := by
  decide

example : inverseView (mk [(1, 2), (2, 3)]) = [(2, 1), (3, 2)] := by decide

example : (getOp (mk [(1, 2), (2, 3)]) 3).1 = some 2 := by decide

example : (invertOp (mk [(1, 2), (2, 3)])).forward = [(2, 1), (3, 2)] := by
  decide

example : WF (mk [(1, 2), (2, 3)]) := by decide

example : Corr (setOp (mk [(1, 5)]) 1 6) → False := by decide

/-- C1 (counterexample): the claim as stated fails. For the map `{1: 2}`,
after `inverse()` the pair `(3, 2)` is added via `set`; the claim demands
that `inverse()[2]` then raise `KeyNotFound`, but the lookup succeeds with
the cached key `1`. -/
theorem C1_counterexample :
    dictGet? (inverseOp (setOp ((inverseOp (mk [(1, 2)])).2) 3 2)).1 2 =
      some 1 := by
  decide

/-- C1 (amended): once the inverse cache exists, every later `inverse()`
result — after any sequence of further `set` calls — is exactly the cached
snapshot, so a pair `(k, v)` added via `set` after the first `inverse()`
call is invisible to it, and `inverse()[v]` raises `KeyNotFound` whenever
`v` was not already a value of the snapshot. -/
theorem C1_cache_frozen (s : ReverseDict) (m : List (Nat × Nat))
    (hm : s.inv? = some m) (ops : List (Nat × Nat)) (v : Nat) :
    (inverseOp (setMany s ops)).1 = m ∧
      (dictGet? m v = none →
        dictGet? (inverseOp (setMany s ops)).1 v = none) := by
  have h1 : (setMany s ops).inv? = some m := by rw [inv?_setMany, hm]
  rw [inverseOp_of_some h1]
  exact ⟨rfl, id⟩

/-- C1 witness: the regression scenario of the specification with `a, b, c`
read as `10, 20, 30`: build `{10: 1, 20: 2}`, call `inverse()`, then
`set(30, 3)`; `inverse()[3]` raises `KeyNotFound`. -/
theorem C1_cache_frozen_witness :
    dictGet?
      (inverseOp (setMany ((inverseOp (mk [(10, 1), (20, 2)])).2)
        [(30, 3)])).1 3 = none := by
  have h := C1_cache_frozen ((inverseOp (mk [(10, 1), (20, 2)])).2)
    [(1, 10), (2, 20)] (by decide) [(30, 3)] 3
  exact h.2 (by decide)

/-- C2: on well-formed states, `get(k)` returns the forward-stored value
when `k` is in `keyOrder` (forward lookup wins, and always succeeds there);
otherwise it returns the entry of the lazily built, cached inverse view; it
fails with `KeyNotFound` exactly when `k` is in neither. -/
theorem C2_get_semantics (s : ReverseDict) (k : Nat) (hwf : WF s) :
    (getOp s k).1 =
        (if k ∈ s.keys then dictGet? s.forward k
         else dictGet? (inverseView s) k) ∧
      (k ∈ s.keys → (getOp s k).1.isSome = true) ∧
      ((getOp s k).1 = none ↔
        k ∉ s.keys ∧ dictGet? (inverseView s) k = none) := by
  refine ⟨getOp_fst s k, ?_, ?_⟩
  · intro hm
    rw [getOp_fst, if_pos hm]
    exact dictGet?_isSome.mpr (hwf.1 ▸ hm)
  · constructor
    · intro hnone
      by_cases hm : k ∈ s.keys
      · rw [getOp_fst, if_pos hm] at hnone
        exact absurd (hwf.1 ▸ hm) (dictGet?_eq_none.mp hnone)
      · rw [getOp_fst, if_neg hm] at hnone
        exact ⟨hm, hnone⟩
    · rintro ⟨hm, hnone⟩
      rw [getOp_fst, if_neg hm]
      exact hnone

/-- C2 witness: on the map `{1: 2}` the key `1` is a forward key and
`get(1)` succeeds. -/
theorem C2_get_semantics_witness :
    (getOp (mk [(1, 2)]) 1).1.isSome = true :=
  (C2_get_semantics (mk [(1, 2)]) 1 (by decide)).2.1 (by decide)

/-- C3 (counterexample): for `M = {1: 5}` (values unique, inverse never
built), `set(1, 6)` on the already-present key `1` leaves `_values`
untouched, so `inverse()[6]` raises `KeyNotFound` instead of returning the
key `1` as the claim demands. -/
theorem C3_counterexample :
    ((mk [(1, 5)]).values.Nodup ∧ (mk [(1, 5)]).inv? = none) ∧
      dictGet? (inverseView (setOp (mk [(1, 5)]) 1 6)) 6 = none := by
  decide

/-- C3 (amended): for maps with unique values on which the inverse cache
has not yet been built, after `set(k, v)` with a NEW key `k` (one not in
`keyOrder`), `inverse()[v]` returns `k`. -/
theorem C3_set_then_inverse (s : ReverseDict) (k v : Nat) (hwf : WF s)
    (_hvals : s.values.Nodup) (hinv : s.inv? = none) (hk : k ∉ s.keys) :
    dictGet? (inverseView (setOp s k v)) v = some k := by
  have hinv2 : (setOp s k v).inv? = none := by rw [inv?_setOp, hinv]
  rw [inverseView_of_none hinv2]
  exact buildInverse_setOp_new v hwf.2.2 hk

/-- C3 witness: on `{1: 5}`, `set(2, 9)` then `inverse()[9] = 2`. -/
theorem C3_set_then_inverse_witness :
    dictGet? (inverseView (setOp (mk [(1, 5)]) 2 9)) 9 = some 2 :=
  C3_set_then_inverse (mk [(1, 5)]) 2 9 (by decide) (by decide) (by decide)
    (by decide)

/-- C4 (counterexample): for `M = {5: 7, 7: 5}`, `delete(5)` removes the
forward entry, but the subsequent `get(5)` does not raise `KeyNotFound`:
the inverse view built from the remaining entry `{7: 5}` maps `5` back to
`7`, so `get(5)` returns `7`. -/
theorem C4_counterexample :
    (delOp (mk [(5, 7), (7, 5)]) 5).map (fun s2 => (getOp s2 5).1) =
      some (some 7) := by
  decide

/-- C4 (amended): `delete(k)` on a present key removes the forward entry
and the matching position from both `keyOrder` and `valueOrder`, after
which `k` is no longer a forward key; a subsequent `get(k)` fails with
`KeyNotFound` provided `k` does not occur as a value in the inverse view
that `get` consults. `delete(k)` on an absent key fails with
`KeyNotFound`. -/
theorem C4_delete_semantics (s : ReverseDict) (k : Nat) (hwf : WF s) :
    (k ∈ s.keys →
      ∃ s2, delOp s k = some s2 ∧
        dictGet? s2.forward k = none ∧
        s2.keys = s.keys.eraseIdx (s.keys.indexOf k) ∧
        s2.values = s.values.eraseIdx (s.keys.indexOf k) ∧
        k ∉ s2.keys ∧
        (dictGet? (inverseView s2) k = none → (getOp s2 k).1 = none)) ∧
      (k ∉ s.keys → delOp s k = none) := by
  constructor
  · intro hm
    have hd : delOp s k = some
        { s with
          forward := dictDel s.forward k
          keys := s.keys.eraseIdx (s.keys.indexOf k)
          values := s.values.eraseIdx (s.keys.indexOf k) } := by
      unfold delOp
      rw [if_pos hm]
    refine ⟨_, hd, ?_, rfl, rfl, not_mem_keys_delOp hwf hd, ?_⟩
    · show dictGet? (dictDel s.forward k) k = none
      exact dictGet?_dictDel_self (hwf.1 ▸ hwf.2.1)
    · intro hnone
      rw [getOp_fst, if_neg (not_mem_keys_delOp hwf hd)]
      exact hnone
  · intro hm
    unfold delOp
    rw [if_neg hm]

/-- C4 witness: on `{1: 2}` the key `1` is present and `delete(1)`
succeeds. -/
theorem C4_delete_semantics_witness :
    (delOp (mk [(1, 2)]) 1).isSome = true := by
  obtain ⟨s2, hs2, -⟩ :=
    (C4_delete_semantics (mk [(1, 2)]) 1 (by decide)).1 (by decide)
  rw [hs2]
  rfl

/-- C5 (counterexample): on the empty map, call `inverse()` (the cache
becomes `{}`), then `set(1, 5)`. The value `5` is now present in the map's
value set, yet `contains(5)` returns `false`, because the stale cached
inverse is consulted. -/
theorem C5_counterexample :
    5 ∈ (setOp ((inverseOp (mk [])).2) 1 5).values ∧
      (containsOp (setOp ((inverseOp (mk [])).2) 1 5) 5).1 = false := by
  decide

/-- C5 (amended): `contains(v)` is true exactly when `v` is a forward key
or a key of the inverse view; consequently it is true for every value `v`
in `valueOrder` whenever the inverse cache has not yet been built, and
evaluating `contains` builds (freezes) the cache whenever the forward check
fails. -/
theorem C5_contains_semantics (s : ReverseDict) (v : Nat) (hwf : WF s) :
    ((containsOp s v).1 = true ↔
        v ∈ s.keys ∨ (dictGet? (inverseView s) v).isSome = true) ∧
      (s.inv? = none → v ∈ s.values → (containsOp s v).1 = true) ∧
      (v ∉ s.keys → (containsOp s v).2.inv? = some (inverseView s)) := by
  have hfst : v ∉ s.keys →
      (containsOp s v).1 = (dictGet? (inverseView s) v).isSome := by
    intro hm
    unfold containsOp inverseView
    rw [if_neg hm]
  refine ⟨?_, ?_, ?_⟩
  · by_cases hm : v ∈ s.keys
    · constructor
      · intro _
        exact Or.inl hm
      · intro _
        unfold containsOp
        rw [if_pos hm]
    · rw [hfst hm]
      constructor
      · exact Or.inr
      · rintro (h | h)
        · exact absurd h hm
        · exact h
  · intro hinv hv
    by_cases hm : v ∈ s.keys
    · unfold containsOp
      rw [if_pos hm]
    · rw [hfst hm, inverseView_of_none hinv]
      exact mem_buildInverse hwf.2.2 hv
  · intro hm
    have hsnd : (containsOp s v).2 = (inverseOp s).2 := by
      unfold containsOp
      rw [if_neg hm]
    rw [hsnd, inverseOp_snd_inv?]

/-- C5 witness: on `{1: 5}` (no cache built yet), `contains(5)` is true
even though `5` was never inserted as a key. -/
theorem C5_contains_semantics_witness :
    (containsOp (mk [(1, 5)]) 5).1 = true :=
  (C5_contains_semantics (mk [(1, 5)]) 5 (by decide)).2.1 (by decide)
    (by decide)

/-- C6 (counterexample): the claimed invariant is not preserved by `set` on
an existing key: `M = {1: 5}` satisfies it, but after `set(1, 6)` the
forward storage holds `1 ↦ 6` while `valueOrder` still holds `5` at the
key's position. -/
theorem C6_counterexample :
    Corr (mk [(1, 5)]) ∧ ¬ Corr (setOp (mk [(1, 5)]) 1 6) := by
  decide

/-- C6 (amended): the equal-length half of the invariant holds after
construction and is preserved by every `set` and by every `delete` — on any
state satisfying it, `Corr` or not; the positional correspondence
(`valueOrder[i]` is the forward-stored value of `keyOrder[i]`) holds after
construction and is preserved by `delete` and by `set` of a NEW key, but
`set` on an existing key can break it. -/
theorem C6_invariant (s : ReverseDict) (k v : Nat) :
    (∀ pairs : List (Nat × Nat), WF (mk pairs) ∧ Corr (mk pairs)) ∧
      (s.values.length = s.keys.length →
        (setOp s k v).values.length = (setOp s k v).keys.length) ∧
      (∀ s2, s.values.length = s.keys.length → delOp s k = some s2 →
        s2.values.length = s2.keys.length) ∧
      (WF s → WF (setOp s k v)) ∧
      (WF s → Corr s → k ∉ s.keys → Corr (setOp s k v)) ∧
      (∀ s2, WF s → Corr s → delOp s k = some s2 → WF s2 ∧ Corr s2) := by
  refine ⟨fun pairs => ⟨wf_mk pairs, corr_mk pairs⟩, ?_, ?_,
    fun h => wf_setOp k v h,
    fun hwf hc hm => corr_setOp_new v hwf hc hm,
    fun s2 hwf hc hd => ⟨wf_delOp hwf hd, corr_delOp hwf hc hd⟩⟩
  · intro hlen
    unfold setOp
    split
    · exact hlen
    · show (s.values ++ [v]).length = (s.keys ++ [k]).length
      simp [hlen]
  · intro s2 hlen hd
    obtain ⟨hm, rfl⟩ := delOp_eq_some hd
    have hidx : s.keys.indexOf k < s.keys.length :=
      List.indexOf_lt_length.mpr hm
    show (s.values.eraseIdx _).length = (s.keys.eraseIdx _).length
    rw [List.length_eraseIdx_of_lt hidx,
      List.length_eraseIdx_of_lt (hlen ▸ hidx)]
    rw [hlen]

/-- C6 witness: on the reachable state `{1: 5}` then `set(1, 6)` — whose
positional correspondence is already broken — `delete(1)` still preserves
the equal-length half of the invariant. -/
theorem C6_invariant_witness :
    ({ forward := [], keys := [], values := [], inv? := none } :
        ReverseDict).values.length =
      ({ forward := [], keys := [], values := [], inv? := none } :
        ReverseDict).keys.length :=
  (C6_invariant (setOp (mk [(1, 5)]) 1 6) 1 0).2.2.1
    { forward := [], keys := [], values := [], inv? := none }
    (by decide) (by decide)

/-- C7: for a map whose forward entries form a bijection (pairwise distinct
values; keys are distinct by construction), `invert()` applied twice yields
a map whose forward entries equal those of the original. -/
theorem C7_invert_involution (s : ReverseDict) (hwf : WF s)
    (hv : (s.forward.map Prod.snd).Nodup) :
    (invertOp (invertOp s)).forward = s.forward := by
  have hfst : (s.forward.map Prod.fst).Nodup := hwf.1 ▸ hwf.2.1
  have h1 : (invertOp s).forward = s.forward.map Prod.swap := by
    rw [invertOp_eq_fromPairs]
    apply fromPairs_forward
    rw [List.map_map]
    exact hv
  have h2 : (invertOp (invertOp s)).forward =
      (invertOp s).forward.map Prod.swap := by
    rw [invertOp_eq_fromPairs (invertOp s)]
    apply fromPairs_forward
    rw [h1, List.map_map, List.map_map]
    exact hfst
  rw [h2, h1, List.map_map]
  simp [Function.comp, Prod.swap_swap]

/-- C7 witness: the bijective map `{1: 2, 2: 3}` is recovered by two
applications of `invert()`. -/
theorem C7_invert_involution_witness :
    (invertOp (invertOp (mk [(1, 2), (2, 3)]))).forward =
      (mk [(1, 2), (2, 3)]).forward :=
  C7_invert_involution (mk [(1, 2), (2, 3)]) (by decide) (by decide)

/-- C8 (counterexample): constructing from the pairs `[(7, 1), (7, 2)]`
(the key `7` supplied twice) yields `keyOrder = [7]`: the duplicated key
appears exactly once in `keyOrder`, not more than once as claimed. -/
theorem C8_counterexample :
    (mk [(7, 1), (7, 2)]).keys = [7] ∧
      ¬ 1 < (mk [(7, 1), (7, 2)]).keys.count 7 := by
  decide

/-- C8 (amended): the initializer DOES deduplicate `keyOrder` (it is the
key view of the underlying dict, whose keys are unique): every key occurs
at most once in `keyOrder`, and it occurs there exactly when it occurs
among the supplied pairs. -/
theorem C8_init_dedup (pairs : List (Nat × Nat)) (k : Nat) :
    (mk pairs).keys.count k ≤ 1 ∧
      (k ∈ (mk pairs).keys ↔ k ∈ pairs.map Prod.fst) := by
  constructor
  · exact List.nodup_iff_count_le_one.mp (wf_mk pairs).2.1 k
  · show k ∈ (pairs.foldl (fun d p => dictSet d p.1 p.2) []).map Prod.fst ↔ _
    rw [mem_map_fst_foldl_dictSet]
    simp

/-- C9 (counterexample): `M = {1: 2, 2: 3}` with cache built
(`{2: 1, 3: 2}`), then `delete(1)`. The cached inverse still maps `2 ↦ 1`,
but `get(2)` now returns the forward value `3`, not the key `1` that the
claim demands. -/
theorem C9_counterexample :
    (delOp ((inverseOp (mk [(1, 2), (2, 3)])).2) 1).map
        (fun s2 => (dictGet? (inverseOp s2).1 2, (getOp s2 2).1)) =
      some (some 1, some 3) := by
  decide

/-- C9 (amended): once the cache is built, `delete(k)` leaves the cached
inverse mapping completely unchanged — `inverse()[v]` still yields `k` for
every `v` that mapped to `k` — and `get(v)` still returns `k` provided `v`
is not a forward key of the shrunken map (forward lookup has priority). -/
theorem C9_delete_frame (s s2 : ReverseDict) (m : List (Nat × Nat))
    (k v : Nat) (hm : s.inv? = some m) (hd : delOp s k = some s2) :
    (inverseOp s2).1 = m ∧
      (dictGet? m v = some k → v ∉ s2.keys → (getOp s2 v).1 = some k) := by
  have h2 : s2.inv? = some m := by rw [inv?_delOp hd, hm]
  constructor
  · rw [inverseOp_of_some h2]
  · intro hv hk
    rw [getOp_fst, if_neg hk, inverseView_of_some h2]
    exact hv

/-- C9 witness: `{1: 2}` with cache `{2: 1}`; after `delete(1)` the value
`2` still resolves to the deleted key `1` through `get`. -/
theorem C9_delete_frame_witness :
    (getOp
      { forward := [], keys := [], values := [], inv? := some [(2, 1)] }
      2).1 = some 1 := by
  have h := C9_delete_frame ((inverseOp (mk [(1, 2)])).2)
    { forward := [], keys := [], values := [], inv? := some [(2, 1)] }
    [(2, 1)] 1 2 (by decide) (by decide)
  exact h.2 (by decide) (by decide)

/-- C10: `get(k)` on a state with no cache and `k` absent from `keyOrder`
builds and freezes the inverse cache as a side effect (whether or not the
lookup then fails with `KeyNotFound`), so entries added by later `set`
calls are invisible to every subsequent `inverse()` result. -/
theorem C10_get_builds_cache (s : ReverseDict) (k : Nat)
    (h1 : s.inv? = none) (h2 : k ∉ s.keys) :
    (getOp s k).2.inv? = some (buildInverse s) ∧
      ∀ ops : List (Nat × Nat),
        (inverseOp (setMany (getOp s k).2 ops)).1 = buildInverse s := by
  have hsnd : (getOp s k).2 = (inverseOp s).2 := by
    unfold getOp
    rw [if_neg h2]
  have hinv : (getOp s k).2.inv? = some (buildInverse s) := by
    rw [hsnd, inverseOp_snd_inv?, inverseView_of_none h1]
  refine ⟨hinv, fun ops => ?_⟩
  have hall : (setMany (getOp s k).2 ops).inv? = some (buildInverse s) := by
    rw [inv?_setMany, hinv]
  rw [inverseOp_of_some hall]

/-- C10 witness: on `{1: 2}`, the failing `get(5)` freezes the cache
`{2: 1}`; a later `set(3, 4)` is invisible to `inverse()`. -/
theorem C10_get_builds_cache_witness :
    (inverseOp (setMany (getOp (mk [(1, 2)]) 5).2 [(3, 4)])).1 =
      buildInverse (mk [(1, 2)]) :=
  (C10_get_builds_cache (mk [(1, 2)]) 5 (by decide) (by decide)).2 [(3, 4)]

end RD
